import Mathlib

/-!
# Verification of the poly420 playback engine and state codec

Shallow embedding of `src/app/src/poly420/index.tsx` (primary variant, the
one the line references of the claims point into).  Real-valued quantities
(times, volumes, tempi-derived durations) are modelled over `ℚ`; the
JavaScript string codec is modelled over `List Char` so that every
definition evaluates inside the kernel.

Conventions:
* `jsRound` models JS `Math.round` (round half toward +∞).
* JS `Number(...)` is modelled on the non-negative decimal integer literals
  that the codec grammar produces (`jsNumberNat`); every other string
  behaves as `NaN` (`none`).  Overflow of huge digit strings to `Infinity`
  is not modelled (the app never encodes such values).
-/

namespace Poly420

/-- One rhythmic voice.  Mirrors the `Track` record of the source. -/
structure Track where
  id : String
  beatsPerCycle : ℕ
  pitchIndex : ℕ
  volume : ℚ
  muted : Bool
  deafened : Bool
deriving DecidableEq, Repr

/-- `const PITCHES = [392, 494, 587, 440, 659, 784, 523, 698]` -/
def PITCHES : List ℚ := [392, 494, 587, 440, 659, 784, 523, 698]

/-- `const DEFAULT_TEMPO = 30` -/
def DEFAULT_TEMPO : ℕ := 30

/-- `const DEFAULT_VOLUME = 0.75` -/
def DEFAULT_VOLUME : ℚ := 0.75

/-- `const DEFAULT_TRACKS` : the 4-beat and 3-beat default pair. -/
def DEFAULT_TRACKS : List Track :=
  [ { id := "track-1", beatsPerCycle := 4, volume := DEFAULT_VOLUME,
      muted := false, deafened := false, pitchIndex := 0 },
    { id := "track-2", beatsPerCycle := 3, volume := DEFAULT_VOLUME,
      muted := false, deafened := false, pitchIndex := 1 } ]

/-- JS `Math.round`: round half toward positive infinity. -/
def jsRound (q : ℚ) : ℤ := ⌊q + 1/2⌋

/-- `clampTempo = (tempo) => Math.min(240, Math.max(1, Math.round(tempo)))`.
The result is a positive integer, returned as `ℕ`. -/
def clampTempo (tempo : ℚ) : ℕ := (min 240 (max 1 (jsRound tempo))).toNat

/-- `applyPitchOrder`: reassign `pitchIndex := position mod PITCHES.length`. -/
def applyPitchOrder (tracks : List Track) : List Track :=
  tracks.enum.map fun p => { p.2 with pitchIndex := p.1 % PITCHES.length }

/-! ## String scanning helpers (kernel-evaluable stand-ins for the JS string API) -/

/-- JS `String.prototype.split` with a one-character separator. -/
def splitOnChar (c : Char) (cs : List Char) : List (List Char) :=
  match cs with
  | [] => [[]]
  | x :: xs =>
    let rest := splitOnChar c xs
    if x = c then [] :: rest
    else
      match rest with
      | [] => [[x]]
      | r :: rs => (x :: r) :: rs

/-- JS `String.prototype.startsWith`. -/
def listStartsWith (p cs : List Char) : Bool :=
  match p, cs with
  | [], _ => true
  | _ :: _, [] => false
  | a :: ps, b :: xs => a = b && listStartsWith ps xs

/-- Longest digit prefix and the rest: the greedy `\d+` / `(\d+)?` step. -/
def spanDigits (cs : List Char) : List Char × List Char :=
  match cs with
  | [] => ([], [])
  | c :: r =>
    if c.isDigit then
      let s := spanDigits r
      (c :: s.1, s.2)
    else ([], c :: r)

/-- Value of a non-empty list of decimal digits. -/
def digitsToNat (ds : List Char) : ℕ :=
  ds.foldl (fun acc c => 10 * acc + (c.toNat - '0'.toNat)) 0

/-- JS `Number()` on the strings this codec feeds it, see the header note:
digit-only non-empty strings parse to their value, everything else is `NaN`. -/
def jsNumberNat (cs : List Char) : Option ℕ :=
  if cs ≠ [] ∧ cs.all Char.isDigit then some (digitsToNat cs) else none

/-! ## State codec -/

/-- The body of the `.map` over `trackPieces` in `encodeState`:
`<beats><v<percent>?><m?><d?>`. -/
def encodeTrackEntry (t : Track) : String :=
  let volumePercent := jsRound (t.volume * 100)
  toString t.beatsPerCycle
    ++ (if volumePercent ≠ jsRound (DEFAULT_VOLUME * 100)
        then "v" ++ toString volumePercent else "")
    ++ (if t.muted then "m" else "")
    ++ (if t.deafened then "d" else "")

/-- `tracksMatchDefault`: length equal and fieldwise (beats, volume, muted,
deafened) equal to the default pair. -/
def tracksMatchDefault (tracks : List Track) : Bool :=
  tracks.length == DEFAULT_TRACKS.length &&
    (tracks.zip DEFAULT_TRACKS).all fun p =>
      p.1.beatsPerCycle == p.2.beatsPerCycle &&
      decide (p.1.volume = p.2.volume) &&
      p.1.muted == p.2.muted &&
      p.1.deafened == p.2.deafened

/-- `encodeState(tempo, tracks, darkMode)`. -/
def encodeState (tempo : ℕ) (tracks : List Track) (darkMode : Bool) : String :=
  let pieces : List String :=
    (if !darkMode then ["theme=light"] else [])
      ++ (if tempo ≠ DEFAULT_TEMPO then ["t=" ++ toString tempo] else [])
      ++ (if !tracksMatchDefault tracks
          then ["tracks=" ++ String.intercalate "|" (tracks.map encodeTrackEntry)]
          else [])
  if pieces = [] then "" else "#" ++ String.intercalate ";" pieces

/-- The regex `^(\d+)(v(\d+))?(m)?(d)?$` of `parseState`, returning
(beats digits value, optional volume digits value, `m` present, `d` present). -/
def matchTrackEntry (cs : List Char) : Option (ℕ × Option ℕ × Bool × Bool) :=
  let sp := spanDigits cs
  if sp.1 = [] then none
  else
    let next : Option (Option ℕ × List Char) :=
      match sp.2 with
      | 'v' :: r2 =>
        let sv := spanDigits r2
        if sv.1 = [] then none else some (some (digitsToNat sv.1), sv.2)
      | r => some (none, r)
    match next with
    | none => none
    | some (vol, r3) =>
      let m : Bool × List Char := match r3 with
        | 'm' :: r => (true, r)
        | r => (false, r)
      let d : Bool × List Char := match m.2 with
        | 'd' :: r => (true, r)
        | r => (false, r)
      if d.2 = [] then some (digitsToNat sp.1, vol, m.1, d.1) else none

/-- Body of the `.map((piece, index) => ...)` over the `|`-split entries in
`parseState` (`index` is the position in the split, *before* filtering). -/
def mkDecodedTrack (index : ℕ) (piece : List Char) : Option Track :=
  match matchTrackEntry piece with
  | none => none
  | some (beats, volOpt, m, d) =>
    if beats < 1 then none
    else
      let volumePercent : ℚ := match volOpt with
        | some v => (v : ℚ)
        | none => ((jsRound (DEFAULT_VOLUME * 100) : ℤ) : ℚ)
      some { id := "track-" ++ toString (index + 1),
             beatsPerCycle := max 1 beats,
             pitchIndex := index % PITCHES.length,
             volume := min 1 (max 0 (volumePercent / 100)),
             muted := m,
             deafened := d }

/-- The `trackPieces` pipeline of `parseState`: split on `|`, map with the
pre-filter index, drop the failures, then `applyPitchOrder`. -/
def decodeTracks (cs : List Char) : List Track :=
  applyPitchOrder ((splitOnChar '|' cs).enum.filterMap fun p => mkDecodedTrack p.1 p.2)

/-- Result record of `parseState`. -/
structure ParsedState where
  tempo : ℕ
  tracks : List Track
  darkMode : Bool
deriving DecidableEq, Repr

/-- Accumulator of the `parts.forEach` loop of `parseState`. -/
structure ParseAcc where
  tempo : ℕ
  tracksPart : Option (List Char)
  darkMode : Bool
deriving DecidableEq, Repr

/-- One step of the `parts.forEach` loop of `parseState`.  The `t=` branch
is `clampTempo(Number(part.slice(2)) || DEFAULT_TEMPO)`: `NaN` *and `0`*
are replaced by the default tempo before clamping. -/
def parsePart (acc : ParseAcc) (part : List Char) : ParseAcc :=
  if listStartsWith "t=".data part then
    let n : ℚ := match jsNumberNat (part.drop 2) with
      | some v => if v = 0 then (DEFAULT_TEMPO : ℚ) else (v : ℚ)
      | none => (DEFAULT_TEMPO : ℚ)
    { acc with tempo := clampTempo n }
  else if listStartsWith "theme=".data part then
    let v := part.drop 6
    if v = "dark".data then { acc with darkMode := true }
    else if v = "light".data then { acc with darkMode := false }
    else acc
  else if listStartsWith "tracks=".data part then
    { acc with tracksPart := some (part.drop 7) }
  else acc

/-- `parseState` on the character list of the hash
(`hash.startsWith("#") ? hash.slice(1) : hash`). -/
def parseStateChars (cs : List Char) : Option ParsedState :=
  let raw := if listStartsWith "#".data cs then cs.drop 1 else cs
  if raw = [] then some ⟨DEFAULT_TEMPO, DEFAULT_TRACKS, true⟩
  else
    let acc := (splitOnChar ';' raw).foldl parsePart
      ⟨DEFAULT_TEMPO, none, true⟩
    match acc.tracksPart with
    | none => some ⟨acc.tempo, DEFAULT_TRACKS, acc.darkMode⟩
    | some tp =>
      if tp = [] then some ⟨acc.tempo, DEFAULT_TRACKS, acc.darkMode⟩
      else
        let trackPieces := decodeTracks tp
        if trackPieces = [] then none
        else some ⟨acc.tempo, trackPieces, acc.darkMode⟩

/-- `parseState(hash)`. -/
def parseState (hash : String) : Option ParsedState := parseStateChars hash.data

/-! ## Audibility resolver -/

/-- The `audibleTracks` memo of the primary variant: compute the active id
set (deafened tracks if any, else all, minus muted) and zero the volume of
every track outside it. -/
def audibleTracks (tracks : List Track) : List Track :=
  tracks.map fun t =>
    { t with volume :=
        if (((if 0 < (tracks.filter fun u => u.deafened).length
              then tracks.filter fun u => u.deafened
              else tracks).filter fun u => !u.muted).map fun u => u.id).contains t.id
        then t.volume else 0 }

/-- The `audibleTracks` memo of the filtering variants (`part_000` line 245,
second variant line 1627): keep only the active tracks. -/
def audibleTracksFiltered (tracks : List Track) : List Track :=
  (if 0 < (tracks.filter fun t => t.deafened).length
   then tracks.filter fun t => t.deafened
   else tracks).filter fun t => !t.muted

/-- Modelled from the spec: the audibility membership rule of section 4.2
(if some track is deafened the audible set is the deafened minus the muted
tracks, otherwise all minus the muted tracks), used to compare the code's
resolver against the spec's words. -/
def specAudible (tracks : List Track) (t : Track) : Bool :=
  (if tracks.any fun u => u.deafened then t.deafened else true) && !t.muted

/-! ## Track mutations -/

/-- `toggleMute(id)`: flip `muted`, force `deafened := false`, reassign pitches. -/
def toggleMute (id : String) (tracks : List Track) : List Track :=
  applyPitchOrder (tracks.map fun t =>
    if t.id = id then { t with muted := !t.muted, deafened := false } else t)

/-- `toggleDeafen(id)`: flip `deafened`, force `muted := false`, reassign pitches. -/
def toggleDeafen (id : String) (tracks : List Track) : List Track :=
  applyPitchOrder (tracks.map fun t =>
    if t.id = id then { t with deafened := !t.deafened, muted := false } else t)

/-- `addTrack()`: append a fresh 2-beat track (identifier from the global
counter, passed explicitly here), reassign pitches. -/
def addTrack (counter : ℕ) (tracks : List Track) : List Track :=
  applyPitchOrder (tracks ++
    [{ id := "track-" ++ toString counter, beatsPerCycle := 2,
       pitchIndex := tracks.length % PITCHES.length,
       volume := DEFAULT_VOLUME, muted := false, deafened := false }])

/-- `removeTrack(id)`. -/
def removeTrack (id : String) (tracks : List Track) : List Track :=
  applyPitchOrder (tracks.filter fun t => !(t.id = id))

/-- `updateTrackBeats(id, beats)`: `Math.max(1, Math.round(beats))`. -/
def updateTrackBeats (id : String) (beats : ℚ) (tracks : List Track) : List Track :=
  applyPitchOrder (tracks.map fun t =>
    if t.id = id then { t with beatsPerCycle := (max 1 (jsRound beats)).toNat } else t)

/-- `updateTrackVolume(id, volume)`: `Math.min(1, Math.max(0, volume))`. -/
def updateTrackVolume (id : String) (volume : ℚ) (tracks : List Track) : List Track :=
  applyPitchOrder (tracks.map fun t =>
    if t.id = id then { t with volume := min 1 (max 0 volume) } else t)

/-- Mutual exclusivity of `muted` and `deafened` on every track of a list. -/
def MutedDeafenedExclusive (tracks : List Track) : Prop :=
  ∀ t ∈ tracks, ¬(t.muted = true ∧ t.deafened = true)

instance (l : List Track) : Decidable (MutedDeafenedExclusive l) :=
  List.decidableBAll _ l

/-! ## Lookahead scheduler

Model of the per-tick `schedule` closure of the primary variant (webaudio
path, lines 841-913; the html path computes the same cycle/beat instants).
Times are rationals in the `performance.now()/1000` frame; the
`ctxOffset` clock conversion is an additive shift of every time and the
stale test `cycleStart < ctx.currentTime - 0.2` is invariant under it. -/

/-- `cycleDuration = 60 / tempo`. -/
def cycleDuration (tempo : ℕ) : ℚ := 60 / tempo

/-- `scheduleAhead = 0.8`. -/
def scheduleAhead : ℚ := 0.8

/-- The `0.2` seconds tolerance of the stale-cycle test. -/
def staleTolerance : ℚ := 0.2

/-- One beat event dispatched to an engine. -/
structure BeatEvent where
  trackId : String
  beat : ℕ
  time : ℚ
  accent : Bool
deriving DecidableEq, Repr

/-- `beatMoment = cycleStart + (cycleDur * beat) / track.beatsPerCycle`. -/
def beatMoment (cycleStart cycleDur : ℚ) (beats beat : ℕ) : ℚ :=
  cycleStart + (cycleDur * beat) / beats

/-- The inner `for (let beat = 0; ...)` loop over one track of one cycle:
one event per beat, accent exactly on beat `0`. -/
def trackCycleEvents (cycleStart cycleDur : ℚ) (t : Track) : List BeatEvent :=
  (List.range t.beatsPerCycle).map fun beat =>
    { trackId := t.id, beat := beat,
      time := beatMoment cycleStart cycleDur t.beatsPerCycle beat,
      accent := beat == 0 }

/-- A scheduled event tagged with its cycle index. -/
structure SchedEvent where
  cycle : ℕ
  trackId : String
  beat : ℕ
  time : ℚ
  accent : Bool
deriving DecidableEq, Repr

/-- All events of one cycle: the `tracksNow.forEach` body. -/
def cycleEvents (cycle : ℕ) (cycleStart cycleDur : ℚ) (tracks : List Track) :
    List SchedEvent :=
  tracks.flatMap fun t =>
    (trackCycleEvents cycleStart cycleDur t).map fun e =>
      { cycle := cycle, trackId := e.trackId, beat := e.beat,
        time := e.time, accent := e.accent }

/-- Transport state: the refs the scheduler reads and writes.
`anchor = transportAnchorRef`, `startTime = startTimeRef`,
`nextCycle = nextCycleRef`, `scheduledUntil = scheduledUntilRef`,
`restart = restartTransportRef`. -/
structure SchedState where
  anchor : Option ℚ
  startTime : ℚ
  nextCycle : ℕ
  scheduledUntil : ℚ
  restart : Bool
deriving DecidableEq, Repr

/-- The ref state at component mount, before any tick. -/
def initialSchedState : SchedState :=
  { anchor := none, startTime := 0, nextCycle := 0, scheduledUntil := 0,
    restart := false }

/-- The `while (scheduledUntilRef.current < until)` loop of `schedule`.
`fuel` bounds the number of iterations (the JS loop terminates because
`scheduledUntil` strictly grows by `cycleDur > 0` per iteration; running
out of fuel returns the state reached so far). -/
def tickLoop (fuel : ℕ) (now untl cd : ℚ) (tracks : List Track)
    (s : SchedState) : SchedState × List SchedEvent :=
  match fuel with
  | 0 => (s, [])
  | fuel + 1 =>
    if s.scheduledUntil < untl then
      let cycleStart := s.startTime + s.nextCycle * cd
      if cycleStart < now - staleTolerance then
        ({ s with restart := true }, [])
      else
        let evs := cycleEvents s.nextCycle cycleStart cd tracks
        let step := tickLoop fuel now untl cd tracks
          { s with nextCycle := s.nextCycle + 1, scheduledUntil := cycleStart + cd }
        (step.1, evs ++ step.2)
    else (s, [])

/-- The head of `schedule` before the while loop: fill a missing anchor
with `now + 0.008`, then, when `restartTransportRef` is set or
`startTimeRef` is still `0`, re-derive the transport cleanly from the
anchor. -/
def tickRestart (now cd : ℚ) (s : SchedState) : SchedState :=
  let anchor := s.anchor.getD (now + 0.008)
  let s1 := { s with anchor := some anchor }
  if s1.restart = true ∨ s1.startTime = 0 then
    let elapsed := max 0 (now - anchor)
    let nc := (max 0 ⌊elapsed / cd⌋).toNat
    { s1 with startTime := anchor, nextCycle := nc,
              scheduledUntil := anchor + nc * cd, restart := false }
  else s1

/-- One full `schedule` tick: restart handling, then the lookahead loop up
to `until = now + scheduleAhead`. -/
def tick (fuel : ℕ) (now cd : ℚ) (tracks : List Track) (s : SchedState) :
    SchedState × List SchedEvent :=
  tickLoop fuel now (now + scheduleAhead) cd tracks (tickRestart now cd s)

/-- A sequence of lookahead passes of one continuous Running phase (no stop
and no restart processing in between): fold `tickLoop` over a list of
`(fuel, now)` tick inputs, collecting all emitted events. -/
def runLoop (ticks : List (ℕ × ℚ)) (cd : ℚ) (tracks : List Track)
    (s : SchedState) : SchedState × List SchedEvent :=
  match ticks with
  | [] => (s, [])
  | (fuel, now) :: rest =>
    let step := tickLoop fuel now (now + scheduleAhead) cd tracks s
    let next := runLoop rest cd tracks step.1
    (next.1, step.2 ++ next.2)

/-- The body of the `timingSignature` effect while playing (lines 457-462):
set the restart flag and zero the transport refs; the anchor ref is kept. -/
def timingChangeReset (s : SchedState) : SchedState :=
  { s with restart := true, startTime := 0, nextCycle := 0, scheduledUntil := 0 }

/-- `timingSignature`: the memo string that keys the reset effect —
tempo together with every track's id and beat count. -/
def timingSignature (tempo : ℕ) (tracks : List Track) : String :=
  toString tempo ++ "|" ++
    String.intercalate ","
      (tracks.map fun t => t.id ++ ":" ++ toString t.beatsPerCycle)

/-! ## Helper lemmas -/

theorem applyPitchOrder_length (l : List Track) :
    (applyPitchOrder l).length = l.length := by
  simp [applyPitchOrder]

theorem mem_applyPitchOrder {t' : Track} {l : List Track}
    (h : t' ∈ applyPitchOrder l) :
    ∃ t ∈ l, t' = { t with pitchIndex := t'.pitchIndex } := by
  unfold applyPitchOrder at h
  obtain ⟨p, hp, hpt⟩ := List.mem_map.mp h
  refine ⟨p.2, ?_, by simp [← hpt]⟩
  have := List.enum_map_snd l
  exact this ▸ List.mem_map_of_mem Prod.snd hp

theorem events_trackCycleEvents {e : BeatEvent} {cycleStart cycleDur : ℚ}
    {t : Track} (h : e ∈ trackCycleEvents cycleStart cycleDur t) :
    e.trackId = t.id ∧ e.beat < t.beatsPerCycle := by
  unfold trackCycleEvents at h
  obtain ⟨b, hb, hbe⟩ := List.mem_map.mp h
  subst hbe
  exact ⟨rfl, List.mem_range.mp hb⟩

theorem cycleEvents_cycle {e : SchedEvent} {c : ℕ} {cycleStart cycleDur : ℚ}
    {tracks : List Track} (h : e ∈ cycleEvents c cycleStart cycleDur tracks) :
    e.cycle = c := by
  unfold cycleEvents at h
  obtain ⟨t, _, hmem⟩ := List.mem_flatMap.mp h
  obtain ⟨e', _, he⟩ := List.mem_map.mp hmem
  subst he
  rfl

/-- Generic no-duplicates principle for `flatMap` when each block carries a
distinguishing tag readable off its elements. -/
theorem nodup_flatMap_key {α β γ : Type} (l : List α) (f : α → List β)
    (key : β → γ) (tag : α → γ) (hl : (l.map tag).Nodup)
    (hf : ∀ a ∈ l, (f a).Nodup)
    (hkey : ∀ a ∈ l, ∀ b ∈ f a, key b = tag a) :
    (l.flatMap f).Nodup := by
  induction l with
  | nil => simp
  | cons a as ih =>
    rw [List.flatMap_cons, List.nodup_append]
    refine ⟨hf a (by simp), ih (by simpa using hl.of_cons)
      (fun x hx => hf x (by simp [hx]))
      (fun x hx b hb => hkey x (by simp [hx]) b hb), ?_⟩
    intro b hb hb'
    obtain ⟨a', ha', hba'⟩ := List.mem_flatMap.mp hb'
    have h1 : key b = tag a := hkey a (by simp) b hb
    have h2 : key b = tag a' := hkey a' (by simp [ha']) b hba'
    have : tag a ∈ as.map tag := h1 ▸ h2 ▸ List.mem_map_of_mem tag ha'
    simp at hl
    exact hl.1 _ ha' (h1.symm.trans h2).symm

/-- The `(cycle, trackId, beat)` triples of one cycle's events. -/
theorem cycleEvents_triples (c : ℕ) (cycleStart cycleDur : ℚ)
    (tracks : List Track) :
    (cycleEvents c cycleStart cycleDur tracks).map
        (fun e => (e.cycle, e.trackId, e.beat)) =
      tracks.flatMap fun t =>
        (List.range t.beatsPerCycle).map fun b => (c, t.id, b) := by
  simp only [cycleEvents, trackCycleEvents, List.map_flatMap, List.map_map]
  rfl

/-- Closed form of the lookahead while loop: it emits the events of a
contiguous range of cycles starting at `nextCycle` and advances
`nextCycle` by the length of that range; `startTime` is untouched. -/
theorem tickLoop_spec (fuel : ℕ) (now untl cd : ℚ) (tracks : List Track)
    (s : SchedState) :
    ∃ k, (tickLoop fuel now untl cd tracks s).1.nextCycle = s.nextCycle + k ∧
      (tickLoop fuel now untl cd tracks s).1.startTime = s.startTime ∧
      (tickLoop fuel now untl cd tracks s).2 =
        (List.range' s.nextCycle k).flatMap fun c =>
          cycleEvents c (s.startTime + c * cd) cd tracks := by
  induction fuel generalizing s with
  | zero => exact ⟨0, by simp [tickLoop]⟩
  | succ n ih =>
    by_cases h1 : s.scheduledUntil < untl
    · by_cases h2 : s.startTime + s.nextCycle * cd < now - staleTolerance
      · refine ⟨0, ?_, ?_, ?_⟩ <;> simp [tickLoop, h1, h2]
      · obtain ⟨k, hk1, hk2, hk3⟩ := ih
          { s with nextCycle := s.nextCycle + 1,
                   scheduledUntil := s.startTime + s.nextCycle * cd + cd }
        refine ⟨k + 1, ?_, ?_, ?_⟩
        · simp only [tickLoop, if_pos h1, if_neg h2]
          simp only at hk1
          rw [hk1]
          omega
        · simp only [tickLoop, if_pos h1, if_neg h2]
          simpa using hk2
        · simp only [tickLoop, if_pos h1, if_neg h2]
          simp only at hk3
          rw [hk3, List.range'_succ, List.flatMap_cons]
    · exact ⟨0, by simp [tickLoop, h1]⟩

/-- Closed form of a whole Running phase: consecutive passes continue the
contiguous cycle range exactly where the previous pass stopped. -/
theorem runLoop_spec (ticks : List (ℕ × ℚ)) (cd : ℚ) (tracks : List Track)
    (s : SchedState) :
    ∃ K, (runLoop ticks cd tracks s).1.nextCycle = s.nextCycle + K ∧
      (runLoop ticks cd tracks s).1.startTime = s.startTime ∧
      (runLoop ticks cd tracks s).2 =
        (List.range' s.nextCycle K).flatMap fun c =>
          cycleEvents c (s.startTime + c * cd) cd tracks := by
  induction ticks generalizing s with
  | nil => exact ⟨0, by simp [runLoop]⟩
  | cons tk rest ih =>
    obtain ⟨fuel, now⟩ := tk
    obtain ⟨k1, h11, h12, h13⟩ :=
      tickLoop_spec fuel now (now + scheduleAhead) cd tracks s
    obtain ⟨K, h21, h22, h23⟩ :=
      ih (tickLoop fuel now (now + scheduleAhead) cd tracks s).1
    refine ⟨k1 + K, ?_, ?_, ?_⟩
    · simp only [runLoop]
      rw [h21, h11]
      omega
    · simp only [runLoop]
      rw [h22, h12]
    · simp only [runLoop]
      rw [h13, h23, h11, h12, ← List.flatMap_append]
      have harr : List.range' s.nextCycle k1 ++ List.range' (s.nextCycle + k1) K
          = List.range' s.nextCycle (k1 + K) := by
        have := List.range'_append s.nextCycle k1 K 1
        simpa [Nat.add_comm K k1] using this
      rw [harr]

/-- No event of a lookahead pass belongs to a cycle whose start is more
than the tolerance in the past: the stale test aborts the loop first. -/
theorem tickLoop_no_stale (fuel : ℕ) (now untl cd : ℚ) (tracks : List Track)
    (s : SchedState) :
    ∀ e ∈ (tickLoop fuel now untl cd tracks s).2,
      ¬(s.startTime + e.cycle * cd < now - staleTolerance) := by
  induction fuel generalizing s with
  | zero => simp [tickLoop]
  | succ n ih =>
    by_cases h1 : s.scheduledUntil < untl
    · by_cases h2 : s.startTime + s.nextCycle * cd < now - staleTolerance
      · simp [tickLoop, h1, h2]
      · intro e he
        simp only [tickLoop, if_pos h1, if_neg h2, List.mem_append] at he
        rcases he with he | he
        · rw [cycleEvents_cycle he]
          exact h2
        · have := ih _ e he
          simp only at this
          exact this
    · simp [tickLoop, h1]

/-- The membership rule of the filtering resolver equals the spec's rule
(no distinctness of ids needed). -/
theorem audibleTracksFiltered_eq (tracks : List Track) :
    audibleTracksFiltered tracks = tracks.filter (specAudible tracks) := by
  unfold audibleTracksFiltered specAudible
  by_cases hd : tracks.any (fun u => u.deafened) = true
  · have hlen : 0 < (tracks.filter fun t => t.deafened).length := by
      obtain ⟨u, hu, hud⟩ := List.any_eq_true.mp hd
      exact List.length_pos.mpr fun hnil =>
        (List.filter_eq_nil_iff.mp hnil u hu) hud
    rw [if_pos hlen, List.filter_filter]
    exact List.filter_congr fun t ht => by simp [hd, Bool.and_comm]
  · have hfil : (tracks.filter fun t => t.deafened) = [] := by
      rw [List.filter_eq_nil_iff]
      intro a ha hda
      exact hd (List.any_eq_true.mpr ⟨a, ha, hda⟩)
    rw [hfil]
    simp only [List.length_nil, lt_irrefl, if_false]
    exact List.filter_congr fun t ht => by simp [hd]

/-- The volume-zeroing resolver agrees with the spec's rule pointwise when
track ids are distinct. -/
theorem audibleTracks_eq (tracks : List Track)
    (h : (tracks.map Track.id).Nodup) :
    audibleTracks tracks = tracks.map fun t =>
      if specAudible tracks t then t else { t with volume := 0 } := by
  have hqq : audibleTracks tracks = tracks.map fun t =>
      if ((audibleTracksFiltered tracks).map (fun u => u.id)).contains t.id
      then t else { t with volume := 0 } := by
    unfold audibleTracks audibleTracksFiltered
    refine List.map_congr_left fun t ht => ?_
    by_cases hc : ((((if 0 < (tracks.filter fun u => u.deafened).length
        then tracks.filter fun u => u.deafened else tracks).filter
          fun u => !u.muted).map fun u => u.id).contains t.id) = true
    · rw [if_pos hc, if_pos hc]
    · rw [if_neg hc, if_neg hc]
  rw [hqq]
  refine List.map_congr_left fun t ht => ?_
  have hkey : ((audibleTracksFiltered tracks).map (fun u => u.id)).contains t.id
      = specAudible tracks t := by
    rw [audibleTracksFiltered_eq]
    by_cases hsa : specAudible tracks t = true
    · rw [hsa]
      have : t.id ∈ (tracks.filter (specAudible tracks)).map fun u => u.id :=
        List.mem_map_of_mem _ (List.mem_filter.mpr ⟨ht, hsa⟩)
      simpa [List.contains, List.elem_iff] using this
    · have hsa' : specAudible tracks t = false := by
        simpa using hsa
      rw [hsa']
      suffices hns : ¬ t.id ∈ (tracks.filter (specAudible tracks)).map
          (fun u => u.id) by
        simpa [List.contains, List.elem_iff] using hns
      intro hmem
      obtain ⟨u, hu, huid⟩ := List.mem_map.mp hmem
      obtain ⟨hul, hua⟩ := List.mem_filter.mp hu
      have : u = t := List.inj_on_of_nodup_map h hul ht huid
      rw [this] at hua
      rw [hua] at hsa'
      exact Bool.true_eq_false.mp hsa'
  rw [hkey]

/-! ## Claim theorems -/

/-- **C1**: for every tempo `1 ≤ t ≤ 240` the cycle duration is `60/t`
seconds, the beat instants of a track with `n` beats in a cycle starting at
`cycleStart` are exactly `cycleStart + k·cycleDuration/n` for `k ∈ [0,n)`,
and beat `0` is the unique accented beat. -/
theorem beat_instants_spec (tempo : ℕ) (h1 : 1 ≤ tempo) (h2 : tempo ≤ 240)
    (cycleStart : ℚ) (track : Track) (hn : 1 ≤ track.beatsPerCycle) :
    cycleDuration tempo = 60 / tempo ∧
    trackCycleEvents cycleStart (cycleDuration tempo) track =
      (List.range track.beatsPerCycle).map (fun k =>
        { trackId := track.id, beat := k,
          time := cycleStart + k * cycleDuration tempo / track.beatsPerCycle,
          accent := k == 0 }) ∧
    ((trackCycleEvents cycleStart (cycleDuration tempo) track).filter
        fun e => e.accent).map (fun e => e.beat) = [0] := by
  obtain ⟨m, hm⟩ : ∃ m, track.beatsPerCycle = m + 1 :=
    ⟨track.beatsPerCycle - 1, by omega⟩
  refine ⟨rfl, ?_, ?_⟩
  · unfold trackCycleEvents beatMoment
    refine List.map_congr_left fun k hk => ?_
    simp only [BeatEvent.mk.injEq, true_and, and_true]
    ring
  · unfold trackCycleEvents
    rw [hm, List.range_succ_eq_map, List.map_cons, List.map_map]
    simp [List.filter_cons, List.filter_map, Function.comp]

/-- Fixture for the witness of `beat_instants_spec`. -/
def w1Track : Track :=
  { id := "track-1", beatsPerCycle := 4, pitchIndex := 0,
    volume := DEFAULT_VOLUME, muted := false, deafened := false }

theorem beat_instants_spec_witness :
    (1 ≤ 60 ∧ 60 ≤ 240 ∧ 1 ≤ w1Track.beatsPerCycle) ∧
    (cycleDuration 60 = 60 / 60 ∧
     trackCycleEvents 0 (cycleDuration 60) w1Track =
       (List.range w1Track.beatsPerCycle).map (fun k =>
         { trackId := w1Track.id, beat := k,
           time := 0 + k * cycleDuration 60 / w1Track.beatsPerCycle,
           accent := k == 0 }) ∧
     ((trackCycleEvents 0 (cycleDuration 60) w1Track).filter
        fun e => e.accent).map (fun e => e.beat) = [0]) :=
  ⟨⟨by decide, by decide, by decide⟩,
   beat_instants_spec 60 (by decide) (by decide) 0 w1Track (by decide)⟩

/-- **C2**: within one continuous Running phase (no stop, no restart
processing — and the restart block is the identity exactly when the restart
flag is clear and the transport is initialized), a run of lookahead passes
advances `nextCycle` monotonically, emits exactly the contiguous range of
cycles it traversed, and emits every `(cycle, track, beat)` triple at most
once. -/
theorem scheduler_at_most_once (ticks : List (ℕ × ℚ)) (cd : ℚ)
    (tracks : List Track) (s : SchedState)
    (h : (tracks.map Track.id).Nodup) :
    (∀ (now2 : ℚ) (s2 : SchedState) (a : ℚ), s2.restart = false →
      s2.startTime ≠ 0 → s2.anchor = some a → tickRestart now2 cd s2 = s2) ∧
    s.nextCycle ≤ (runLoop ticks cd tracks s).1.nextCycle ∧
    (∃ K, (runLoop ticks cd tracks s).1.nextCycle = s.nextCycle + K ∧
      (runLoop ticks cd tracks s).2 =
        (List.range' s.nextCycle K).flatMap fun c =>
          cycleEvents c (s.startTime + c * cd) cd tracks) ∧
    ((runLoop ticks cd tracks s).2.map
        fun e => (e.cycle, e.trackId, e.beat)).Nodup := by
  obtain ⟨K, h1, h2, h3⟩ := runLoop_spec ticks cd tracks s
  refine ⟨?_, by omega, ⟨K, h1, h3⟩, ?_⟩
  · intro now2 s2 a hr hst ha
    unfold tickRestart
    rw [ha]
    simp only [Option.getD_some, hr, Bool.false_eq_true, false_or, if_neg hst]
    rw [← ha, ← hr]
  rw [h3, List.map_flatMap]
  refine nodup_flatMap_key _ _ (fun tr => tr.1) (fun c => c) ?_ ?_ ?_
  · simpa using List.nodup_range' s.nextCycle K
  · intro c hc
    rw [cycleEvents_triples]
    refine nodup_flatMap_key _ _ (fun tr => tr.2.1) Track.id h ?_ ?_
    · intro t ht
      refine List.Nodup.map ?_ (List.nodup_range _)
      intro b1 b2 hb
      simpa using hb
    · intro t ht b hb
      obtain ⟨b', hb', hbe⟩ := List.mem_map.mp hb
      rw [← hbe]
  · intro c hc tr htr
    obtain ⟨e, he, hte⟩ := List.mem_map.mp htr
    rw [← hte]
    exact cycleEvents_cycle he

/-- Fixture for the witness of `scheduler_at_most_once`. -/
def w2State : SchedState :=
  { anchor := some 0, startTime := 0, nextCycle := 0, scheduledUntil := 0,
    restart := false }

theorem scheduler_at_most_once_witness :
    ((DEFAULT_TRACKS.map Track.id).Nodup) ∧
    ((∀ (now2 : ℚ) (s2 : SchedState) (a : ℚ), s2.restart = false →
       s2.startTime ≠ 0 → s2.anchor = some a → tickRestart now2 2 s2 = s2) ∧
     w2State.nextCycle ≤ (runLoop [(2, 0)] 2 DEFAULT_TRACKS w2State).1.nextCycle ∧
     (∃ K, (runLoop [(2, 0)] 2 DEFAULT_TRACKS w2State).1.nextCycle =
         w2State.nextCycle + K ∧
       (runLoop [(2, 0)] 2 DEFAULT_TRACKS w2State).2 =
         (List.range' w2State.nextCycle K).flatMap fun c =>
           cycleEvents c (w2State.startTime + c * 2) 2 DEFAULT_TRACKS) ∧
     ((runLoop [(2, 0)] 2 DEFAULT_TRACKS w2State).2.map
          fun e => (e.cycle, e.trackId, e.beat)).Nodup) :=
  ⟨by decide, scheduler_at_most_once [(2, 0)] 2 DEFAULT_TRACKS w2State (by decide)⟩

/-- **C3**: the audibility resolver keeps exactly the deafened-minus-muted
tracks when some track is deafened and the all-minus-muted tracks
otherwise, and an audible track's effective volume is its own `volume`
field (the volume-zeroing variant leaves audible tracks untouched). -/
theorem audibility_resolution (tracks : List Track)
    (h : (tracks.map Track.id).Nodup) :
    audibleTracksFiltered tracks = tracks.filter (specAudible tracks) ∧
    audibleTracks tracks = tracks.map fun t =>
      if specAudible tracks t then t else { t with volume := 0 } :=
  ⟨audibleTracksFiltered_eq tracks, audibleTracks_eq tracks h⟩

/-- Fixture for the witness of `audibility_resolution`. -/
def w3Tracks : List Track :=
  [ { id := "track-1", beatsPerCycle := 4, pitchIndex := 0, volume := 3/4,
      muted := false, deafened := true },
    { id := "track-2", beatsPerCycle := 3, pitchIndex := 1, volume := 1/2,
      muted := true, deafened := false },
    { id := "track-3", beatsPerCycle := 5, pitchIndex := 2, volume := 1,
      muted := false, deafened := false } ]

theorem audibility_resolution_witness :
    ((w3Tracks.map Track.id).Nodup) ∧
    (audibleTracksFiltered w3Tracks = w3Tracks.filter (specAudible w3Tracks) ∧
     audibleTracks w3Tracks = w3Tracks.map fun t =>
       if specAudible w3Tracks t then t else { t with volume := 0 }) :=
  ⟨by decide, audibility_resolution w3Tracks (by decide)⟩

/-- **C5**: a structural timing change while playing resets the cycle
index to 0, the in-use anchor (`startTimeRef`) and the scheduled-until
mark, sets the restart flag, and the next tick then behaves exactly like
the first tick of a scheduler started fresh from the same anchor — the
same state and the same events, so no beat is doubled or skipped at the
splice. -/
theorem timing_change_reset_splice (s : SchedState) :
    (timingChangeReset s).nextCycle = 0 ∧
    (timingChangeReset s).startTime = 0 ∧
    (timingChangeReset s).scheduledUntil = 0 ∧
    (timingChangeReset s).restart = true ∧
    ∀ (fuel : ℕ) (now cd : ℚ) (tracks : List Track),
      tick fuel now cd tracks (timingChangeReset s) =
        tick fuel now cd tracks { initialSchedState with anchor := s.anchor } := by
  refine ⟨rfl, rfl, rfl, rfl, fun fuel now cd tracks => ?_⟩
  unfold tick
  congr 1

/-- **C6**: a cycle whose start lies more than the 0.2 s tolerance in the
past makes the pass abandon its loop with no events and a set restart
flag; no emitted event of any pass belongs to such a stale cycle; and a
set restart flag makes the next restart processing re-derive the transport
from the anchor alone, ignoring the stale transport fields. -/
theorem stale_cycle_abandons (fuel : ℕ) (now untl cd : ℚ)
    (tracks : List Track) (s : SchedState)
    (hdue : s.scheduledUntil < untl)
    (hstale : s.startTime + s.nextCycle * cd < now - staleTolerance) :
    tickLoop (fuel + 1) now untl cd tracks s = ({ s with restart := true }, []) ∧
    (∀ (fuel2 : ℕ) (s2 : SchedState),
      ∀ e ∈ (tickLoop fuel2 now untl cd tracks s2).2,
        ¬(s2.startTime + e.cycle * cd < now - staleTolerance)) ∧
    (∀ (now2 : ℚ) (s2 : SchedState), s2.restart = true →
      tickRestart now2 cd s2 =
        tickRestart now2 cd { initialSchedState with anchor := s2.anchor }) := by
  refine ⟨?_, fun fuel2 s2 => tickLoop_no_stale fuel2 now untl cd tracks s2, ?_⟩
  · simp [tickLoop, hdue, hstale]
  · intro now2 s2 hr
    unfold tickRestart initialSchedState
    simp [hr]

/-- Fixture for the witness of `stale_cycle_abandons`. -/
def w6State : SchedState :=
  { anchor := some 0, startTime := 0, nextCycle := 0, scheduledUntil := 0,
    restart := false }

theorem stale_cycle_abandons_witness :
    (w6State.scheduledUntil < (10.8 : ℚ) ∧
     w6State.startTime + w6State.nextCycle * 2 < 10 - staleTolerance) ∧
    (tickLoop (0 + 1) 10 10.8 2 DEFAULT_TRACKS w6State =
        ({ w6State with restart := true }, []) ∧
     (∀ (fuel2 : ℕ) (s2 : SchedState),
       ∀ e ∈ (tickLoop fuel2 10 10.8 2 DEFAULT_TRACKS s2).2,
         ¬(s2.startTime + e.cycle * 2 < 10 - staleTolerance)) ∧
     (∀ (now2 : ℚ) (s2 : SchedState), s2.restart = true →
       tickRestart now2 2 s2 =
         tickRestart now2 2 { initialSchedState with anchor := s2.anchor })) :=
  ⟨⟨by norm_num [w6State], by norm_num [w6State, staleTolerance]⟩,
   stale_cycle_abandons 0 10 10.8 2 DEFAULT_TRACKS w6State
     (by norm_num [w6State]) (by norm_num [w6State, staleTolerance])⟩

/-- `applyPitchOrder` only rewrites pitch indices, so it preserves the
mute/deafen exclusivity of a track list. -/
theorem mutedDeafened_applyPitchOrder {l : List Track}
    (h : MutedDeafenedExclusive l) :
    MutedDeafenedExclusive (applyPitchOrder l) := by
  intro t' ht'
  obtain ⟨t, ht, hte⟩ := mem_applyPitchOrder ht'
  have hm' : t'.muted = t.muted := by rw [hte]
  have hd' : t'.deafened = t.deafened := by rw [hte]
  intro hboth
  exact h t ht ⟨hm' ▸ hboth.1, hd' ▸ hboth.2⟩

/-- **C4 counterexample**: the claim extends exclusivity to decoded
states, but the entry regex accepts `m` and `d` together: decoding
`tracks=4md` yields a track with `muted = true` and `deafened = true`. -/
theorem decode_can_set_both_flags :
    (parseState "tracks=4md").map
        (fun r => r.tracks.map fun t => (t.muted, t.deafened)) =
      some [(true, true)] := by
  simp +decide [parseState, parseStateChars, parsePart, splitOnChar,
    listStartsWith, jsNumberNat, digitsToNat, decodeTracks, mkDecodedTrack,
    matchTrackEntry, applyPitchOrder, spanDigits, List.enum, List.enumFrom,
    List.filterMap_cons]

/-- **C4 (amended)**: every mutation of the track list (the mute/deafen
toggles, which force the opposite flag off, and the other operations,
which do not touch the flags) preserves the invariant that no track is
simultaneously muted and deafened, and the default state satisfies it;
decoding a state string, however, can violate it. -/
theorem mutations_preserve_exclusivity (tracks : List Track)
    (h : MutedDeafenedExclusive tracks) (id : String) (beats volume : ℚ)
    (counter : ℕ) :
    MutedDeafenedExclusive DEFAULT_TRACKS ∧
    MutedDeafenedExclusive (toggleMute id tracks) ∧
    MutedDeafenedExclusive (toggleDeafen id tracks) ∧
    MutedDeafenedExclusive (addTrack counter tracks) ∧
    MutedDeafenedExclusive (removeTrack id tracks) ∧
    MutedDeafenedExclusive (updateTrackBeats id beats tracks) ∧
    MutedDeafenedExclusive (updateTrackVolume id volume tracks) := by
  refine ⟨by decide, ?_, ?_, ?_, ?_, ?_, ?_⟩ <;>
    apply mutedDeafened_applyPitchOrder
  · intro t' ht'
    obtain ⟨t, ht, hte⟩ := List.mem_map.mp ht'
    by_cases hid : t.id = id
    · rw [if_pos hid] at hte
      rw [← hte]
      simp
    · rw [if_neg hid] at hte
      exact hte ▸ h t ht
  · intro t' ht'
    obtain ⟨t, ht, hte⟩ := List.mem_map.mp ht'
    by_cases hid : t.id = id
    · rw [if_pos hid] at hte
      rw [← hte]
      simp
    · rw [if_neg hid] at hte
      exact hte ▸ h t ht
  · intro t' ht'
    rcases List.mem_append.mp ht' with hmem | hmem
    · exact h t' hmem
    · have : t'.deafened = false := by
        rcases List.mem_singleton.mp hmem with rfl
        rfl
      intro hboth
      rw [this] at hboth
      exact Bool.false_ne_true hboth.2
  · intro t' ht'
    exact h t' (List.mem_filter.mp ht').1
  · intro t' ht'
    obtain ⟨t, ht, hte⟩ := List.mem_map.mp ht'
    by_cases hid : t.id = id
    · rw [if_pos hid] at hte
      intro hboth
      exact h t ht ⟨by rw [← hte] at hboth; exact hboth.1,
                    by rw [← hte] at hboth; exact hboth.2⟩
    · rw [if_neg hid] at hte
      exact hte ▸ h t ht
  · intro t' ht'
    obtain ⟨t, ht, hte⟩ := List.mem_map.mp ht'
    by_cases hid : t.id = id
    · rw [if_pos hid] at hte
      intro hboth
      exact h t ht ⟨by rw [← hte] at hboth; exact hboth.1,
                    by rw [← hte] at hboth; exact hboth.2⟩
    · rw [if_neg hid] at hte
      exact hte ▸ h t ht

theorem mutations_preserve_exclusivity_witness :
    MutedDeafenedExclusive DEFAULT_TRACKS ∧
    (MutedDeafenedExclusive DEFAULT_TRACKS ∧
     MutedDeafenedExclusive (toggleMute "track-1" DEFAULT_TRACKS) ∧
     MutedDeafenedExclusive (toggleDeafen "track-1" DEFAULT_TRACKS) ∧
     MutedDeafenedExclusive (addTrack 3 DEFAULT_TRACKS) ∧
     MutedDeafenedExclusive (removeTrack "track-1" DEFAULT_TRACKS) ∧
     MutedDeafenedExclusive (updateTrackBeats "track-1" 5 DEFAULT_TRACKS) ∧
     MutedDeafenedExclusive (updateTrackVolume "track-1" (1/2) DEFAULT_TRACKS)) :=
  ⟨by decide,
   mutations_preserve_exclusivity DEFAULT_TRACKS (by decide) "track-1" 5 (1/2) 3⟩

/-- Fixture for the non-default round trip: three tracks, two non-default
volumes, one muted, one deafened. -/
def rtTracks : List Track :=
  [ { id := "track-1", beatsPerCycle := 5, pitchIndex := 0, volume := 1/2,
      muted := true, deafened := false },
    { id := "track-2", beatsPerCycle := 7, pitchIndex := 1, volume := 1,
      muted := false, deafened := true },
    { id := "track-3", beatsPerCycle := 3, pitchIndex := 2,
      volume := DEFAULT_VOLUME, muted := false, deafened := false } ]

/-- **C7**: the codec round-trips: the default state encodes to the empty
string, the empty string decodes to the default state, and a non-default
state with three tracks, non-default volumes and mixed mute/deafen flags
also decodes back to itself from its own encoding. -/
theorem codec_round_trip :
    encodeState DEFAULT_TEMPO DEFAULT_TRACKS true = "" ∧
    parseState "" = some ⟨DEFAULT_TEMPO, DEFAULT_TRACKS, true⟩ ∧
    encodeState 77 rtTracks false = "#theme=light;t=77;tracks=5v50m|7v100d|3" ∧
    parseState (encodeState 77 rtTracks false) = some ⟨77, rtTracks, false⟩ := by
  have henc : encodeState 77 rtTracks false
      = "#theme=light;t=77;tracks=5v50m|7v100d|3" := by
    norm_num [encodeState, tracksMatchDefault, encodeTrackEntry, rtTracks,
      DEFAULT_TRACKS, DEFAULT_TEMPO, DEFAULT_VOLUME, jsRound]
    decide
  refine ⟨?_, rfl, henc, ?_⟩
  · norm_num [encodeState, tracksMatchDefault, DEFAULT_TRACKS, DEFAULT_TEMPO]
  · rw [henc]
    simp +decide [parseState, parseStateChars, parsePart, splitOnChar,
      listStartsWith, jsNumberNat, digitsToNat, decodeTracks, mkDecodedTrack,
      matchTrackEntry, applyPitchOrder, spanDigits, clampTempo, jsRound,
      rtTracks, DEFAULT_TEMPO, DEFAULT_VOLUME, PITCHES, List.enum,
      List.enumFrom, List.filterMap_cons]
    norm_num
    decide

/-- **C8 counterexample**: decoding `t=0` does not clamp to 1 — the
`Number(...) || DEFAULT_TEMPO` fallback treats `0` as falsy, so the
default tempo 30 results. -/
theorem decode_tempo_zero_counterexample :
    (parseState "t=0").map ParsedState.tempo = some 30 ∧ (30 : ℕ) ≠ 1 := by
  refine ⟨?_, by decide⟩
  simp +decide [parseState, parseStateChars, parsePart, splitOnChar,
    listStartsWith, jsNumberNat, digitsToNat, clampTempo, jsRound,
    DEFAULT_TEMPO]
  norm_num
  decide

/-- **C8 (amended)**: decoding clamps out-of-range numeric tempos — `t=500`
yields 240 — but `t=0` falls back to the default tempo 30 (`0` is falsy in
`Number(part.slice(2)) || DEFAULT_TEMPO`), not to the clamp floor 1. -/
theorem decode_tempo_clamping :
    (parseState "t=500").map ParsedState.tempo = some 240 ∧
    (parseState "t=0").map ParsedState.tempo = some 30 := by
  constructor
  · simp +decide [parseState, parseStateChars, parsePart, splitOnChar,
      listStartsWith, jsNumberNat, digitsToNat, clampTempo, jsRound,
      DEFAULT_TEMPO]
    norm_num
    decide
  · simp +decide [parseState, parseStateChars, parsePart, splitOnChar,
      listStartsWith, jsNumberNat, digitsToNat, clampTempo, jsRound,
      DEFAULT_TEMPO]
    norm_num
    decide

/-- A track entry is kept by the decoder iff it matches the strict pattern
and its beat count is at least 1 (independent of its position). -/
def entryValid (piece : List Char) : Bool := (mkDecodedTrack 0 piece).isSome

theorem splitOnChar_eq_single {c : Char} {cs : List Char} (h : ¬ c ∈ cs) :
    splitOnChar c cs = [cs] := by
  induction cs with
  | nil => rfl
  | cons x xs ih =>
    have hx : ¬(x = c) := fun he => h (he ▸ List.mem_cons_self x xs)
    have hxs : ¬ c ∈ xs := fun he => h (List.mem_cons_of_mem x he)
    unfold splitOnChar
    rw [ih hxs, if_neg hx]

theorem mkDecodedTrack_isSome (i : ℕ) (piece : List Char) :
    (mkDecodedTrack i piece).isSome = entryValid piece := by
  unfold entryValid mkDecodedTrack
  rcases matchTrackEntry piece with _ | ⟨beats, vol, m, d⟩
  · rfl
  · by_cases hb : beats < 1 <;> simp [hb]

theorem kept_length (l : List (List Char)) (k : ℕ) :
    ((List.enumFrom k l).filterMap fun p => mkDecodedTrack p.1 p.2).length =
      (l.filter entryValid).length := by
  induction l generalizing k with
  | nil => rfl
  | cons p ps ih =>
    rw [List.enumFrom_cons, List.filter_cons]
    by_cases he : entryValid p = true
    · have hsome : (mkDecodedTrack k p).isSome = true := by
        rw [mkDecodedTrack_isSome]; exact he
      obtain ⟨t, ht⟩ := Option.isSome_iff_exists.mp hsome
      have ht' : (fun q : ℕ × List Char => mkDecodedTrack q.1 q.2) (k, p)
          = some t := ht
      rw [@List.filterMap_cons_some _ _ (fun q : ℕ × List Char => mkDecodedTrack q.1 q.2)
        (k, p) (List.enumFrom (k + 1) ps) t ht', if_pos he]
      simp [ih (k + 1)]
    · have hnone : mkDecodedTrack k p = none :=
        Option.not_isSome_iff_eq_none.mp (by rw [mkDecodedTrack_isSome]; simpa using he)
      have hnone' : (fun q : ℕ × List Char => mkDecodedTrack q.1 q.2) (k, p)
          = none := hnone
      rw [@List.filterMap_cons_none _ _ (fun q : ℕ × List Char => mkDecodedTrack q.1 q.2)
        (k, p) (List.enumFrom (k + 1) ps) hnone', if_neg he]
      exact ih (k + 1)

/-- **C9**: a `tracks=` payload decodes entrywise — the kept tracks are
exactly the entries matching the strict pattern with beats ≥ 1, in order;
if every entry is dropped the whole decode is `none` (caller falls back to
defaults), and the mixed example `tracks=4v75|3v75x` decodes to exactly
one track. -/
theorem decode_drop_semantics (s : List Char) (hne : s ≠ [])
    (hsemi : ¬ ';' ∈ s) :
    parseStateChars ("tracks=".data ++ s) =
      (if decodeTracks s = [] then none
       else some ⟨DEFAULT_TEMPO, decodeTracks s, true⟩) ∧
    (decodeTracks s).length = ((splitOnChar '|' s).filter entryValid).length ∧
    parseState "tracks=4v75|3v75x" =
      some ⟨30, [{ id := "track-1", beatsPerCycle := 4, pitchIndex := 0,
                   volume := 3/4, muted := false, deafened := false }], true⟩ := by
  refine ⟨?_, ?_, ?_⟩
  · have harg : "tracks=".data ++ s
        = 't' :: 'r' :: 'a' :: 'c' :: 'k' :: 's' :: '=' :: s := by
      have hL : "tracks=".data = ['t', 'r', 'a', 'c', 'k', 's', '='] := by decide
      rw [hL]
      rfl
    have hmem : ¬ ';' ∈ ('t' :: 'r' :: 'a' :: 'c' :: 'k' :: 's' :: '=' :: s) := by
      intro hin
      rcases List.mem_cons.mp hin with he | hin
      · exact absurd he (by decide)
      rcases List.mem_cons.mp hin with he | hin
      · exact absurd he (by decide)
      rcases List.mem_cons.mp hin with he | hin
      · exact absurd he (by decide)
      rcases List.mem_cons.mp hin with he | hin
      · exact absurd he (by decide)
      rcases List.mem_cons.mp hin with he | hin
      · exact absurd he (by decide)
      rcases List.mem_cons.mp hin with he | hin
      · exact absurd he (by decide)
      rcases List.mem_cons.mp hin with he | hin
      · exact absurd he (by decide)
      exact hsemi hin
    unfold parseStateChars
    rw [harg]
    have hhash : listStartsWith "#".data
        ('t' :: 'r' :: 'a' :: 'c' :: 'k' :: 's' :: '=' :: s) = false := rfl
    rw [hhash]
    simp only [Bool.false_eq_true, if_false]
    rw [if_neg (List.cons_ne_nil _ _)]
    rw [splitOnChar_eq_single hmem]
    simp only [List.foldl_cons, List.foldl_nil]
    have hstep : parsePart ⟨DEFAULT_TEMPO, none, true⟩
        ('t' :: 'r' :: 'a' :: 'c' :: 'k' :: 's' :: '=' :: s) =
        ⟨DEFAULT_TEMPO, some s, true⟩ := by
      unfold parsePart
      simp +decide [listStartsWith, List.drop_succ_cons]
    rw [hstep]
    simp [hne]
  · rw [show decodeTracks s = applyPitchOrder
        ((List.enumFrom 0 (splitOnChar '|' s)).filterMap fun p =>
          mkDecodedTrack p.1 p.2) from rfl]
    rw [applyPitchOrder_length]
    exact kept_length (splitOnChar '|' s) 0
  · simp +decide [parseState, parseStateChars, parsePart, splitOnChar,
      listStartsWith, jsNumberNat, digitsToNat, decodeTracks, mkDecodedTrack,
      matchTrackEntry, applyPitchOrder, spanDigits, jsRound, PITCHES,
      DEFAULT_TEMPO, DEFAULT_VOLUME, List.enum, List.enumFrom,
      List.filterMap_cons]
    norm_num

/-- Fixture: the all-invalid payload of the witness of
`decode_drop_semantics`. -/
def w9Chars : List Char := "bogus|alsoBogus".data

theorem decode_drop_semantics_witness :
    (w9Chars ≠ [] ∧ ¬ ';' ∈ w9Chars) ∧
    (parseStateChars ("tracks=".data ++ w9Chars) =
       (if decodeTracks w9Chars = [] then none
        else some ⟨DEFAULT_TEMPO, decodeTracks w9Chars, true⟩) ∧
     (decodeTracks w9Chars).length =
       ((splitOnChar '|' w9Chars).filter entryValid).length ∧
     parseState "tracks=4v75|3v75x" =
       some ⟨30, [{ id := "track-1", beatsPerCycle := 4, pitchIndex := 0,
                    volume := 3/4, muted := false, deafened := false }], true⟩) :=
  ⟨⟨by decide, by decide⟩,
   decode_drop_semantics w9Chars (by decide) (by decide)⟩

/-- One kept element of the decoder pipeline comes from some entry whose
pre-filter index is at least the element's position in the kept list. -/
theorem kept_get_spec (l : List (List Char)) (k i : ℕ)
    (hi : i < ((List.enumFrom k l).filterMap fun p =>
        mkDecodedTrack p.1 p.2).length) :
    ∃ j piece, k + i ≤ j ∧
      mkDecodedTrack j piece =
        some (((List.enumFrom k l).filterMap fun p =>
          mkDecodedTrack p.1 p.2).get ⟨i, hi⟩) := by
  induction l generalizing k i with
  | nil => simp at hi
  | cons p ps ih =>
    rcases hv : mkDecodedTrack k p with _ | t
    · have hv' : (fun q : ℕ × List Char => mkDecodedTrack q.1 q.2) (k, p)
          = none := hv
      have hrw : ((List.enumFrom k (p :: ps)).filterMap fun q =>
          mkDecodedTrack q.1 q.2) =
          (List.enumFrom (k + 1) ps).filterMap fun q => mkDecodedTrack q.1 q.2 := by
        rw [List.enumFrom_cons, @List.filterMap_cons_none _ _
          (fun q : ℕ × List Char => mkDecodedTrack q.1 q.2)
          (k, p) (List.enumFrom (k + 1) ps) hv']
      have hi2 : i < ((List.enumFrom (k + 1) ps).filterMap fun q =>
          mkDecodedTrack q.1 q.2).length := by
        rw [← hrw]
        exact hi
      rcases ih (k + 1) i hi2 with ⟨j, piece, hj, he⟩
      refine ⟨j, piece, by omega, ?_⟩
      rw [he, List.get_of_eq hrw ⟨i, hi⟩]
    · have hv' : (fun q : ℕ × List Char => mkDecodedTrack q.1 q.2) (k, p)
          = some t := hv
      have hrw : ((List.enumFrom k (p :: ps)).filterMap fun q =>
          mkDecodedTrack q.1 q.2) =
          t :: ((List.enumFrom (k + 1) ps).filterMap fun q =>
            mkDecodedTrack q.1 q.2) := by
        rw [List.enumFrom_cons, @List.filterMap_cons_some _ _
          (fun q : ℕ × List Char => mkDecodedTrack q.1 q.2)
          (k, p) (List.enumFrom (k + 1) ps) t hv']
      rcases i with _ | i'
      · refine ⟨k, p, by omega, ?_⟩
        rw [hv, List.get_of_eq hrw ⟨0, hi⟩]
        rfl
      · have hi2 : i' < ((List.enumFrom (k + 1) ps).filterMap fun q =>
            mkDecodedTrack q.1 q.2).length := by
          have hlen := congrArg List.length hrw
          rw [List.length_cons] at hlen
          omega
        rcases ih (k + 1) i' hi2 with ⟨j, piece, hj, he⟩
        refine ⟨j, piece, by omega, ?_⟩
        rw [he, List.get_of_eq hrw ⟨i' + 1, hi⟩]
        rfl

/-- Every track produced by `mkDecodedTrack` has beats ≥ 1, volume clamped
into `[0, 1]`, and the id derived from the pre-filter entry index. -/
theorem mkDecodedTrack_fields {j : ℕ} {piece : List Char} {t : Track}
    (h : mkDecodedTrack j piece = some t) :
    1 ≤ t.beatsPerCycle ∧ 0 ≤ t.volume ∧ t.volume ≤ 1 ∧
      t.id = "track-" ++ toString (j + 1) := by
  unfold mkDecodedTrack at h
  split at h
  · exact absurd h (by simp)
  · split at h
    · exact absurd h (by simp)
    · injection h with h'
      subst h'
      refine ⟨le_max_left 1 _, ?_, ?_, rfl⟩
      · exact le_min (by norm_num) (le_max_left 0 _)
      · exact min_le_left 1 _

theorem applyPitchOrder_get (l : List Track) (i : ℕ)
    (hi : i < (applyPitchOrder l).length) :
    (applyPitchOrder l).get ⟨i, hi⟩ =
      { l.get ⟨i, by simpa [applyPitchOrder_length] using hi⟩ with
        pitchIndex := i % PITCHES.length } := by
  unfold applyPitchOrder
  rw [List.get_map, List.get_enum]
  rfl

/-- The track list of every successful decode is either the default pair
or a decoder-pipeline output. -/
theorem parseState_tracks_shape {h : String} {r : ParsedState}
    (hp : parseState h = some r) :
    r.tracks = DEFAULT_TRACKS ∨ ∃ cs, r.tracks = decodeTracks cs := by
  unfold parseState parseStateChars at hp
  dsimp only at hp
  by_cases h0 : (if listStartsWith "#".data h.data then h.data.drop 1
      else h.data) = []
  · rw [if_pos h0] at hp
    cases hp
    exact Or.inl rfl
  · rw [if_neg h0] at hp
    rcases htp : (List.foldl parsePart ⟨DEFAULT_TEMPO, none, true⟩
        (splitOnChar ';' (if listStartsWith "#".data h.data
          then h.data.drop 1 else h.data))).tracksPart with _ | tp
    · simp only [htp] at hp
      cases hp
      exact Or.inl rfl
    · simp only [htp] at hp
      by_cases he : tp = []
      · rw [if_pos he] at hp
        cases hp
        exact Or.inl rfl
      · rw [if_neg he] at hp
        by_cases hd : decodeTracks tp = []
        · rw [if_pos hd] at hp
          exact absurd hp (by simp)
        · rw [if_neg hd] at hp
          cases hp
          exact Or.inr ⟨tp, rfl⟩

/-- **C10 counterexample**: decoding `tracks=x|4` keeps one track whose id
is `track-2` (the pre-filter index of its entry), not `track-1` (its
1-based position in the decoded list). -/
theorem decoded_id_position_counterexample :
    (parseState "tracks=x|4").map (fun r => r.tracks.map fun t => t.id) =
      some ["track-2"] ∧ "track-2" ≠ "track-1" := by
  refine ⟨?_, by decide⟩
  simp +decide [parseState, parseStateChars, parsePart, splitOnChar,
    listStartsWith, jsNumberNat, digitsToNat, decodeTracks, mkDecodedTrack,
    matchTrackEntry, applyPitchOrder, spanDigits, List.enum, List.enumFrom,
    List.filterMap_cons]

/-- **C10 (amended)**: every track of a successful decode has an integer
beat count ≥ 1, a volume clamped into `[0, 1]` (`v150` decodes to 1), a
pitch index equal to its position in the decoded list modulo the pitch
table size, and an id of the form `track-(j+1)` where `j` is the index of
its entry in the original `|`-split, which is at least its position (and
equals it when no earlier entry was dropped). -/
theorem decoded_track_invariants (h : String) (r : ParsedState)
    (hp : parseState h = some r) :
    (∀ i (hi : i < r.tracks.length),
      1 ≤ (r.tracks.get ⟨i, hi⟩).beatsPerCycle ∧
      0 ≤ (r.tracks.get ⟨i, hi⟩).volume ∧
      (r.tracks.get ⟨i, hi⟩).volume ≤ 1 ∧
      (r.tracks.get ⟨i, hi⟩).pitchIndex = i % PITCHES.length ∧
      ∃ j, i ≤ j ∧ (r.tracks.get ⟨i, hi⟩).id = "track-" ++ toString (j + 1)) ∧
    (parseState "tracks=4v150").map (fun st => st.tracks.map fun t => t.volume) =
      some [1] := by
  constructor
  · rcases parseState_tracks_shape hp with hdef | ⟨cs, hcs⟩
    · rw [hdef]
      intro i hi
      match i, hi with
      | 0, _ =>
        exact ⟨(by decide : (1 : ℕ) ≤ 4),
          (by norm_num [DEFAULT_VOLUME] : (0 : ℚ) ≤ DEFAULT_VOLUME),
          (by norm_num [DEFAULT_VOLUME] : DEFAULT_VOLUME ≤ (1 : ℚ)),
          (by decide : (0 : ℕ) = 0 % PITCHES.length), 0,
          (by decide : (0 : ℕ) ≤ 0),
          (by decide : ("track-1" : String) = "track-" ++ toString (0 + 1))⟩
      | 1, _ =>
        exact ⟨(by decide : (1 : ℕ) ≤ 3),
          (by norm_num [DEFAULT_VOLUME] : (0 : ℚ) ≤ DEFAULT_VOLUME),
          (by norm_num [DEFAULT_VOLUME] : DEFAULT_VOLUME ≤ (1 : ℚ)),
          (by decide : (1 : ℕ) = 1 % PITCHES.length), 1,
          (by decide : (1 : ℕ) ≤ 1),
          (by decide : ("track-2" : String) = "track-" ++ toString (1 + 1))⟩
      | n + 2, hi =>
        exact absurd hi (by
          simp only [DEFAULT_TRACKS, List.length_cons, List.length_nil]
          omega)
    · rw [hcs]
      intro i hi
      have hik : i < ((List.enumFrom 0 (splitOnChar '|' cs)).filterMap fun p =>
          mkDecodedTrack p.1 p.2).length := by
        simpa [decodeTracks, applyPitchOrder_length, List.enum] using hi
      have hget : (decodeTracks cs).get ⟨i, hi⟩ =
          { ((List.enumFrom 0 (splitOnChar '|' cs)).filterMap fun p =>
              mkDecodedTrack p.1 p.2).get ⟨i, hik⟩ with
            pitchIndex := i % PITCHES.length } :=
        applyPitchOrder_get _ i hi
      rw [hget]
      obtain ⟨j, piece, hji, hje⟩ := kept_get_spec (splitOnChar '|' cs) 0 i hik
      obtain ⟨hb, hv0, hv1, hid⟩ := mkDecodedTrack_fields hje
      exact ⟨hb, hv0, hv1, rfl, j, by omega, hid⟩
  · simp +decide [parseState, parseStateChars, parsePart, splitOnChar,
      listStartsWith, jsNumberNat, digitsToNat, decodeTracks, mkDecodedTrack,
      matchTrackEntry, applyPitchOrder, spanDigits, jsRound, PITCHES,
      DEFAULT_TEMPO, DEFAULT_VOLUME, List.enum, List.enumFrom,
      List.filterMap_cons]
    norm_num

/-- Fixture: the decode result of `tracks=x|4` for the witness of
`decoded_track_invariants`. -/
def w10State : ParsedState :=
  ⟨30, [{ id := "track-2", beatsPerCycle := 4, pitchIndex := 0,
          volume := 3/4, muted := false, deafened := false }], true⟩

theorem decoded_track_invariants_witness :
    parseState "tracks=x|4" = some w10State ∧
    ((∀ i (hi : i < w10State.tracks.length),
      1 ≤ (w10State.tracks.get ⟨i, hi⟩).beatsPerCycle ∧
      0 ≤ (w10State.tracks.get ⟨i, hi⟩).volume ∧
      (w10State.tracks.get ⟨i, hi⟩).volume ≤ 1 ∧
      (w10State.tracks.get ⟨i, hi⟩).pitchIndex = i % PITCHES.length ∧
      ∃ j, i ≤ j ∧
        (w10State.tracks.get ⟨i, hi⟩).id = "track-" ++ toString (j + 1)) ∧
     (parseState "tracks=4v150").map
         (fun st => st.tracks.map fun t => t.volume) = some [1]) := by
  have hp : parseState "tracks=x|4" = some w10State := by
    simp +decide [parseState, parseStateChars, parsePart, splitOnChar,
      listStartsWith, jsNumberNat, digitsToNat, decodeTracks, mkDecodedTrack,
      matchTrackEntry, applyPitchOrder, spanDigits, jsRound, PITCHES,
      DEFAULT_TEMPO, DEFAULT_VOLUME, w10State, List.enum, List.enumFrom,
      List.filterMap_cons]
    norm_num
  exact ⟨hp, decoded_track_invariants "tracks=x|4" w10State hp⟩

end Poly420
